import Mathlib

/-!
# Verification of the rpi-messages core against its specification

This file gives a shallow embedding, in Lean 4, of the core data model and
algorithms of the rpi-messages repository:

* the length-prefixed binary wire protocol of `src/common/src/protocols/pico.rs`
  (postcard serialization of `ClientCommand` and `RequestUpdateResult`,
  `SerDe::to_bytes` / `SerDe::from_bytes`, `Transmission::send` / `Transmission::receive`);
* the device message cache of `src/pico/src/messagebuf.rs`
  (`MessageMeta::is_active`, `Messages::next_available_message`,
  `Messages::next_display_message_generic`);
* the fetch session pieces of `src/pico/src/fetch_protocol.rs`
  (`RequestUpdateResult::check_valid` composed in `Socket::request_update`,
  and the text branch of `Socket::handle_update`);
* the backend repository query of `src/server/src/message.rs` /
  `src/server/src/db/memory_db.rs` (`get_next_message`, `get_message`) and the
  per-connection device session loop of `src/server/src/handlers/device.rs`.

Machine integers are modelled as `Nat` with explicit bounds where the Rust
types impose them (`u8` bytes `< 256`, `u16` lengths `< 2^16`, `u32` fields
`< 2^32`); byte buffers are `List Nat` with every element `< 256`.
`embassy_time::Instant` / `Duration` are modelled as `Nat` tick counts, with
the current time passed explicitly to functions that call `Instant::now()`.
Fallible operations return `Option` or `Except`.
-/

namespace RpiMessages

/-! ## Constants (`src/common/src/consts.rs`) -/

def TEXT_LINES : Nat := 8
def TEXT_COLUMNS : Nat := 17
def TEXT_LENGTH : Nat := TEXT_LINES * TEXT_COLUMNS
def TEXT_BUFFER_SIZE : Nat := TEXT_LENGTH

def IMAGE_WIDTH : Nat := 160
def IMAGE_HEIGHT : Nat := 128
def IMAGE_BYTES_PER_PIXEL : Nat := 2
def IMAGE_BUFFER_SIZE : Nat := IMAGE_HEIGHT * IMAGE_WIDTH * IMAGE_BYTES_PER_PIXEL

/-! ## Wire protocol data types (`src/common/src/protocols/pico.rs`)

`TextLength` is `u8`, `DeviceID` and `MessageID` are transparent wrappers
around `u32`; we model all of them as `Nat` together with well-formedness
predicates recording the machine-integer ranges. -/

/-- `enum UpdateKind { Image, Text(TextLength) }`. -/
inductive UpdateKind where
  | image : UpdateKind
  | text (len : Nat) : UpdateKind
  deriving DecidableEq, Repr

/-- `UpdateKind::size`: the number of raw payload bytes announced by the kind. -/
def UpdateKind.size : UpdateKind → Nat
  | .image => IMAGE_BUFFER_SIZE
  | .text len => len

/-- `struct Update { lifetime_sec: u32, id: MessageID, kind: UpdateKind }`. -/
structure Update where
  lifetime_sec : Nat
  id : Nat
  kind : UpdateKind
  deriving DecidableEq, Repr

/-- `enum RequestUpdateResult { NoUpdate, Update(Update) }`. -/
inductive RequestUpdateResult where
  | noUpdate : RequestUpdateResult
  | update (u : Update) : RequestUpdateResult
  deriving DecidableEq, Repr

/-- `enum ClientCommand { RequestUpdate(DeviceID, Option<MessageID>) }`. -/
inductive ClientCommand where
  | requestUpdate (device : Nat) (after : Option Nat) : ClientCommand
  deriving DecidableEq, Repr

/-- Validity of an `UpdateKind` value: a `Text` length fits in the `u8`
`TextLength` type. -/
def UpdateKind.WF : UpdateKind → Prop
  | .image => True
  | .text len => len < 2 ^ 8

/-- Validity of an `Update` value: `lifetime_sec : u32`, `id : u32` (inside
`MessageID`), and the kind is valid. -/
def Update.WF (u : Update) : Prop :=
  u.lifetime_sec < 2 ^ 32 ∧ u.id < 2 ^ 32 ∧ u.kind.WF

/-- Validity of a `RequestUpdateResult` value. -/
def RequestUpdateResult.WF : RequestUpdateResult → Prop
  | .noUpdate => True
  | .update u => u.WF

/-- Validity of a `ClientCommand` value: `DeviceID` and the optional
`MessageID` are `u32` values. -/
def ClientCommand.WF : ClientCommand → Prop
  | .requestUpdate device after =>
      device < 2 ^ 32 ∧ ∀ a ∈ after, a < 2 ^ 32

instance : DecidablePred UpdateKind.WF := by
  intro k; cases k <;> simp [UpdateKind.WF] <;> infer_instance

instance : DecidablePred Update.WF := by
  intro u; unfold Update.WF; infer_instance

instance : DecidablePred RequestUpdateResult.WF := by
  intro r; cases r <;> simp [RequestUpdateResult.WF] <;> infer_instance

instance : DecidablePred ClientCommand.WF := by
  intro c; cases c; unfold ClientCommand.WF; infer_instance

/-! ## The postcard serialization model

postcard (v1 wire format) encodes unsigned integers wider than one byte as
LEB128 varints (little-endian groups of 7 bits, high bit = continuation),
`u8` as a single raw byte, `Option` as a `0`/`1` tag byte followed by the
payload for `Some`, enum variants as the varint-encoded variant index
followed by the variant's fields, and struct fields in declaration order. -/

/-- LEB128 varint encoding, driven by a fuel counter so the recursion is
structural; `fuel = n + 1` always suffices since the value shrinks by a
factor of 128 each step. -/
def varintEncodeGo : Nat → Nat → List Nat
  | 0, _ => []
  | fuel + 1, n =>
      if n < 128 then [n] else (n % 128 + 128) :: varintEncodeGo fuel (n / 128)

/-- LEB128 varint encoding of a natural number (postcard's encoding of
`u16`/`u32` values). -/
def varintEncode (n : Nat) : List Nat := varintEncodeGo (n + 1) n

/-- LEB128 varint decoding with a fuel bound on the number of bytes
(postcard reads at most `varint_max_size` bytes: 5 for `u32`).
Returns the decoded value and the remaining input. -/
def varintDecodeAux : Nat → Nat → Nat → List Nat → Option (Nat × List Nat)
  | 0, _, _, _ => none
  | _ + 1, _, _, [] => none
  | fuel + 1, shift, acc, b :: rest =>
      let acc' := acc + b % 128 * 2 ^ shift
      if b < 128 then some (acc', rest)
      else varintDecodeAux fuel (shift + 7) acc' rest

/-- Varint decoding of a `u32` field (at most 5 bytes). -/
def varintDecode32 (l : List Nat) : Option (Nat × List Nat) :=
  varintDecodeAux 5 0 0 l

/-- postcard decoding of a `u8` field: one raw byte. -/
def decodeU8 : List Nat → Option (Nat × List Nat)
  | [] => none
  | b :: rest => some (b, rest)

/-- postcard encoding of `Option<MessageID>`: tag byte `0` for `None`,
`1` followed by the varint-encoded `u32` for `Some`. -/
def encodeOptionU32 : Option Nat → List Nat
  | none => [0]
  | some a => 1 :: varintEncode a

/-- postcard decoding of `Option<MessageID>`. -/
def decodeOptionU32 : List Nat → Option (Option Nat × List Nat)
  | [] => none
  | 0 :: rest => some (none, rest)
  | 1 :: rest => (varintDecode32 rest).map fun p => (some p.1, p.2)
  | _ :: _ => none

/-- postcard encoding of `UpdateKind`: varint variant index (`0` = `Image`,
`1` = `Text`), then the `TextLength` byte for `Text`. -/
def UpdateKind.encode : UpdateKind → List Nat
  | .image => [0]
  | .text len => [1, len]

/-- postcard decoding of `UpdateKind`. -/
def UpdateKind.decode (l : List Nat) : Option (UpdateKind × List Nat) := do
  let (disc, rest) ← varintDecode32 l
  match disc with
  | 0 => some (.image, rest)
  | 1 => (decodeU8 rest).map fun p => (.text p.1, p.2)
  | _ => none

/-- postcard encoding of `Update`: the three fields in declaration order. -/
def Update.encode (u : Update) : List Nat :=
  varintEncode u.lifetime_sec ++ varintEncode u.id ++ u.kind.encode

/-- postcard decoding of `Update`. -/
def Update.decode (l : List Nat) : Option (Update × List Nat) := do
  let (lifetime, rest) ← varintDecode32 l
  let (id, rest) ← varintDecode32 rest
  let (kind, rest) ← UpdateKind.decode rest
  some (⟨lifetime, id, kind⟩, rest)

/-- postcard encoding of `RequestUpdateResult`. -/
def RequestUpdateResult.encode : RequestUpdateResult → List Nat
  | .noUpdate => [0]
  | .update u => 1 :: u.encode

/-- postcard decoding of `RequestUpdateResult`. -/
def RequestUpdateResult.decode (l : List Nat) : Option (RequestUpdateResult × List Nat) := do
  let (disc, rest) ← varintDecode32 l
  match disc with
  | 0 => some (.noUpdate, rest)
  | 1 => (Update.decode rest).map fun p => (.update p.1, p.2)
  | _ => none

/-- postcard encoding of `ClientCommand`. -/
def ClientCommand.encode : ClientCommand → List Nat
  | .requestUpdate device after => 0 :: varintEncode device ++ encodeOptionU32 after

/-- postcard decoding of `ClientCommand`. -/
def ClientCommand.decode (l : List Nat) : Option (ClientCommand × List Nat) := do
  let (disc, rest) ← varintDecode32 l
  match disc with
  | 0 => do
      let (device, rest) ← varintDecode32 rest
      let (after, rest) ← decodeOptionU32 rest
      some (.requestUpdate device after, rest)
  | _ => none

/-- `postcard::experimental::max_size::MaxSize` for `ClientCommand`:
1 discriminant byte + 5 (varint `u32` `DeviceID`) + 1 + 5 (`Option<MessageID>`). -/
def ClientCommand.POSTCARD_MAX_SIZE : Nat := 12

/-- `MaxSize` for `RequestUpdateResult`:
1 discriminant byte + (5 + 5 varint `u32` fields + 2 for `UpdateKind`). -/
def RequestUpdateResult.POSTCARD_MAX_SIZE : Nat := 13

/-! ## The length-prefixed transmission layer
(`SerDe` / `Transmission` in `src/common/src/protocols/pico.rs`) -/

instance {ε α : Type} [DecidableEq ε] [DecidableEq α] : DecidableEq (Except ε α)
  | .error e, .error f =>
      if h : e = f then .isTrue (by rw [h])
      else .isFalse (by intro hc; injection hc; exact h (by assumption))
  | .error _, .ok _ => .isFalse (by intro hc; exact Except.noConfusion hc)
  | .ok _, .error _ => .isFalse (by intro hc; exact Except.noConfusion hc)
  | .ok a, .ok b =>
      if h : a = b then .isTrue (by rw [h])
      else .isFalse (by intro hc; injection hc; exact h (by assumption))

/-- `enum Error { Length { val, max }, Postcard(..), Socket }` of
`protocols/pico.rs`. -/
inductive ProtocolError where
  | length (val max : Nat)
  | postcard
  | socket
  deriving DecidableEq, Repr

/-- `(n as u16).to_ne_bytes()`: the two length-prefix bytes.  Both supported
targets (thumbv6m RP2040 device, x86-64 server) are little-endian, so native
byte order is little-endian. -/
def leBytes16 (n : Nat) : List Nat := [n % 2 ^ 16 % 256, n % 2 ^ 16 / 256]

/-- `u16::from_ne_bytes([buf[0], buf[1]])` on the little-endian targets. -/
def fromLeBytes16 (b0 b1 : Nat) : Nat := b0 + 256 * b1

/-- What a big-endian length prefix would look like (`to_be_bytes`); used to
state the spec's byte-order sentence for comparison. -/
def beBytes16 (n : Nat) : List Nat := [n % 2 ^ 16 / 256, n % 2 ^ 16 % 256]

/-- `SerDe::to_bytes` as observed on the wire by `Transmission::send`: the
native-endian `u16` length field followed by the postcard payload.
(`postcard::to_slice` cannot fail here because the buffer has the statically
computed maximum size.) -/
def serdeToBytes (payload : List Nat) : List Nat :=
  leBytes16 payload.length ++ payload

/-- `ClientCommand::to_bytes` / the exact bytes written by `ClientCommand::send`. -/
def ClientCommand.toBytes (c : ClientCommand) : List Nat := serdeToBytes c.encode

/-- `RequestUpdateResult::to_bytes` / bytes written by `RequestUpdateResult::send`. -/
def RequestUpdateResult.toBytes (r : RequestUpdateResult) : List Nat := serdeToBytes r.encode

/-- `ClientCommand::from_bytes` (`postcard::from_bytes`, which ignores any
unused trailing bytes of its input slice). -/
def ClientCommand.fromBytes (l : List Nat) : Option ClientCommand :=
  (ClientCommand.decode l).map (·.1)

/-- `RequestUpdateResult::from_bytes`. -/
def RequestUpdateResult.fromBytes (l : List Nat) : Option RequestUpdateResult :=
  (RequestUpdateResult.decode l).map (·.1)

/-- `Transmission::receive` over an incoming byte stream `s`, for a type with
maximum postcard payload size `maxPayload` and deserializer `dec`.
Returns the result together with the number of stream bytes consumed
(`read_exact` of the 2 length bytes, then `read_exact` of exactly the declared
number of payload bytes).  A stream that ends early makes `read_exact` fail
with `Error::Socket`, having consumed what was available. -/
def transmissionReceive (maxPayload : Nat) (dec : List Nat → Option α)
    (s : List Nat) : Except ProtocolError α × Nat :=
  match s with
  | b0 :: b1 :: rest =>
      let dataLen := fromLeBytes16 b0 b1
      if 2 + dataLen > 2 + maxPayload then
        (.error (.length dataLen maxPayload), 2)
      else if rest.length < dataLen then
        (.error .socket, 2 + rest.length)
      else
        match dec (rest.take dataLen) with
        | some v => (.ok v, 2 + dataLen)
        | none => (.error .postcard, 2 + dataLen)
  | s => (.error .socket, s.length)

/-- `ClientCommand::receive`. -/
def ClientCommand.receive (s : List Nat) : Except ProtocolError ClientCommand × Nat :=
  transmissionReceive ClientCommand.POSTCARD_MAX_SIZE ClientCommand.fromBytes s

/-- `RequestUpdateResult::receive`. -/
def RequestUpdateResult.receive (s : List Nat) : Except ProtocolError RequestUpdateResult × Nat :=
  transmissionReceive RequestUpdateResult.POSTCARD_MAX_SIZE RequestUpdateResult.fromBytes s

/-! ## Message cache (`src/pico/src/messagebuf.rs`)

`embassy_time::Instant` and `Duration` become `Nat` tick values; the
`Instant::now()` read inside `MessageMeta::is_active` becomes an explicit
`now` argument. -/

/-- `struct MessageMeta { lifetime: Duration, updated_at: Instant }`. -/
structure MessageMeta where
  lifetime : Nat
  updated_at : Nat
  deriving DecidableEq, Repr

/-- `MessageMeta::is_active`: `now < updated_at + lifetime`. -/
def MessageMeta.is_active (m : MessageMeta) (now : Nat) : Bool :=
  now < m.updated_at + m.lifetime

/-- Rust's `Iterator::min_by_key`, which returns the **first** of several
equally-minimal elements. -/
def minByKey (key : α → Nat) : List α → Option α
  | [] => none
  | x :: xs =>
      match minByKey key xs with
      | none => some x
      | some m => if key m < key x then some m else some x

/-- `Iterator::min_by_key` together with the position of the returned
element (used where the source keeps a mutable reference into the slice). -/
def minByKeyIdx (key : α → Nat) : List α → Option (Nat × α)
  | [] => none
  | x :: xs =>
      match minByKeyIdx key xs with
      | none => some (0, x)
      | some (j, m) => if key m < key x then some (j + 1, m) else some (0, x)

/-- Rust's `Iterator::position`, returning the first index (and element)
satisfying the predicate. -/
def findIdxFirst (p : α → Bool) : List α → Option (Nat × α)
  | [] => none
  | x :: xs =>
      if p x then some (0, x) else (findIdxFirst p xs).map fun q => (q.1 + 1, q.2)

/-- `Messages::next_available_message` on the slice of slot metadata: the
first inactive slot if any (`position(|m| !m.is_active())`), otherwise the
slot with minimal `updated_at` (`min_by_key`), as an index into the slice.
The Rust function `assert!`s the slice is non-empty and returns a reference;
the empty-slice panic is modelled by `none`. -/
def next_available_message (now : Nat) (metas : List MessageMeta) :
    Option (Nat × MessageMeta) :=
  match findIdxFirst (fun m => ! m.is_active now) metas with
  | some q => some q
  | none => minByKeyIdx (fun m => m.updated_at) metas

/-- `Messages::next_display_message_generic` on the chained slot metadata
(`texts` then `images`; the selection reads only each slot's meta).
First the active slots strictly newer than `last_message_time`, by minimal
`updated_at`; otherwise wrap around to the minimal active slot; otherwise
nothing. -/
def next_display_message_generic (now last_message_time : Nat)
    (slots : List MessageMeta) : Option MessageMeta :=
  match minByKey (fun m => m.updated_at)
      (slots.filter fun m => m.is_active now && decide (last_message_time < m.updated_at)) with
  | some m => some m
  | none =>
      minByKey (fun m => m.updated_at) (slots.filter fun m => m.is_active now)

/-- The display rotation: call `next_display_message_generic` repeatedly,
passing the `updated_at` of the slot returned by the previous call as the
next `last_message_time` (as the display task does).  `rotation … i` is the
result of the `(i+1)`-th call. -/
def rotation (now last0 : Nat) (slots : List MessageMeta) : Nat → Option MessageMeta
  | 0 => next_display_message_generic now last0 slots
  | i + 1 =>
      match rotation now last0 slots i with
      | some m => next_display_message_generic now m.updated_at slots
      | none => none

/-! ## Fetch session (`src/pico/src/fetch_protocol.rs`) -/

/-- `RequestUpdateResult::check_valid`. -/
def RequestUpdateResult.check_valid : RequestUpdateResult → Except ProtocolError Unit
  | .noUpdate => .ok ()
  | .update message_update =>
      match message_update.kind with
      | .image => .ok ()
      | .text size =>
          if size > TEXT_BUFFER_SIZE then
            .error (.length size TEXT_BUFFER_SIZE)
          else
            .ok ()

/-- The variants of `crate::error::Error` reachable in the modelled fetch
paths: `Error::Socket`, `Error::ServerMessage(Protocol/Format _)` and
`Error::ServerMessage(Encoding _)` (invalid UTF-8). -/
inductive FetchError where
  | socket
  | serverMessageProtocol (e : ProtocolError)
  | serverMessageEncoding
  deriving DecidableEq, Repr

/-- The validation step of `Socket::request_update` (after the transport
receive): `result.check_valid()` mapped into `Error::ServerMessage`, then
`valid.and(Ok(result))`. -/
def Socket.request_update_check (result : RequestUpdateResult) :
    Except FetchError RequestUpdateResult :=
  match result.check_valid with
  | .error e => .error (.serverMessageProtocol e)
  | .ok _ => .ok result

/-- States of the standard UTF-8 acceptor: how many continuation bytes are
still expected, with the constrained second-byte states after a leading
`E0`/`ED`/`F0`/`F4` byte (which exclude overlong encodings, surrogates and
code points above `U+10FFFF`, exactly as `core::str::from_utf8` does). -/
inductive Utf8State where
  | start
  | tail1
  | tail2
  | tail3
  | afterE0
  | afterED
  | afterF0
  | afterF4
  deriving DecidableEq, Repr

/-- One byte-step of UTF-8 validation; `none` = invalid input. -/
def utf8Step (s : Utf8State) (b : Nat) : Option Utf8State :=
  match s with
  | .start =>
      if b < 0x80 then some .start
      else if b < 0xC2 then none
      else if b ≤ 0xDF then some .tail1
      else if b = 0xE0 then some .afterE0
      else if b = 0xED then some .afterED
      else if b ≤ 0xEF then some .tail2
      else if b = 0xF0 then some .afterF0
      else if b ≤ 0xF3 then some .tail3
      else if b = 0xF4 then some .afterF4
      else none
  | .tail1 => if 0x80 ≤ b ∧ b ≤ 0xBF then some .start else none
  | .tail2 => if 0x80 ≤ b ∧ b ≤ 0xBF then some .tail1 else none
  | .tail3 => if 0x80 ≤ b ∧ b ≤ 0xBF then some .tail2 else none
  | .afterE0 => if 0xA0 ≤ b ∧ b ≤ 0xBF then some .tail1 else none
  | .afterED => if 0x80 ≤ b ∧ b ≤ 0x9F then some .tail1 else none
  | .afterF0 => if 0x90 ≤ b ∧ b ≤ 0xBF then some .tail2 else none
  | .afterF4 => if 0x80 ≤ b ∧ b ≤ 0x8F then some .tail2 else none

/-- Run of the UTF-8 acceptor from a given state. -/
def utf8Run (s : Utf8State) : List Nat → Bool
  | [] => s = .start
  | b :: rest =>
      match utf8Step s b with
      | some s' => utf8Run s' rest
      | none => false

/-- `core::str::from_utf8` validation of a byte buffer. -/
def utf8Valid (l : List Nat) : Bool := utf8Run .start l

/-- One text slot of the cache: the byte contents of the
`heapless::String<TEXT_BUFFER_SIZE>` plus its freshness metadata. -/
structure TextSlot where
  text : List Nat
  meta : MessageMeta
  deriving DecidableEq, Repr

/-- The implicit invariant of a text slot: its buffer holds valid UTF-8 of
length at most `TEXT_BUFFER_SIZE`. -/
def TextSlot.WF (s : TextSlot) : Prop :=
  utf8Valid s.text ∧ s.text.length ≤ TEXT_BUFFER_SIZE

instance : DecidablePred TextSlot.WF := by
  intro s; unfold TextSlot.WF; infer_instance

/-- The `UpdateKind::Text` branch of `Socket::handle_update`, acting on the
text-slot array:
select a slot with `next_available_text` (which clears the slot's string),
set its metadata from the update (`set_meta`: `updated_at = now`,
`lifetime = Duration::from_secs(update.lifetime_sec)`), grow the string
buffer to `text_len` and `read_exact` the payload into it; on a transport
failure, or if the received bytes are not valid UTF-8, clear the string and
return the error.  `payload = none` models a failed `receive_payload`
(`Error::Socket`); `payload = some p` models a successful read of the
`text_len` requested bytes.  The `none` result models the
`assert!(messages.len() > 0)` panic on an empty slot array. -/
def Socket.handle_update_text (now : Nat) (upd : Update)
    (payload : Option (List Nat)) (slots : List TextSlot) :
    Option (Except FetchError Unit × List TextSlot) :=
  match next_available_message now (slots.map (·.meta)) with
  | none => none
  | some (j, _) =>
      let meta : MessageMeta := ⟨upd.lifetime_sec, now⟩
      match payload with
      | none => some (.error .socket, slots.set j ⟨[], meta⟩)
      | some p =>
          if utf8Valid p then some (.ok (), slots.set j ⟨p, meta⟩)
          else some (.error .serverMessageEncoding, slots.set j ⟨[], meta⟩)

/-! ## Backend message repository
(`src/server/src/message.rs`, `src/server/src/db/memory_db.rs`)

`created_at : chrono::DateTime<Utc>` becomes a `Nat` timestamp and
`meta.duration : chrono::Duration` a `Nat` number of seconds. -/

/-- `MessageContent`: text (UTF-8 bytes of the `String`) or image (the
rgb565 pixel buffer; the `png` representation plays no role here). -/
inductive ServerContent where
  | text (bytes : List Nat)
  | image (rgb565 : List Nat)
  deriving DecidableEq, Repr

/-- `impl From<&MessageContent> for UpdateKind`:
`Text(tc.text.len() as TextLength)` (a truncating `as u8` cast) or `Image`. -/
def ServerContent.toUpdateKind : ServerContent → UpdateKind
  | .text bytes => .text (bytes.length % 2 ^ 8)
  | .image _ => .image

/-- The raw payload bytes the device handler streams for a message. -/
def ServerContent.payloadBytes : ServerContent → List Nat
  | .text bytes => bytes
  | .image rgb565 => rgb565

/-- Backend `Message`: `{ id, meta: { receiver_id, duration }, created_at,
content }` (`sender_id` plays no role in the modelled operations). -/
structure ServerMessage where
  id : Nat
  receiver_id : Nat
  duration : Nat
  created_at : Nat
  content : ServerContent
  deriving DecidableEq, Repr

/-- `Messages::get_message` / `InnerMemoryDb::get_message`:
first message with the given id. -/
def get_message (msgs : List ServerMessage) (id : Nat) : Option ServerMessage :=
  msgs.find? fun message => message.id == id

/-- The Rust filter condition `Some(message.created_at) > after` under the
`Option` ordering (`Some _ > None` always; `Some a > Some b ↔ a > b`). -/
def afterTimeLt : Option Nat → Nat → Bool
  | none, _ => true
  | some a, t => a < t

/-- `Messages::get_next_message` / `InnerMemoryDb::get_next_message`:
look up the cursor message's `created_at` (if the cursor id resolves),
then take the minimum-`created_at` message addressed to `receiver_id`
whose `created_at` is strictly greater. -/
def get_next_message (msgs : List ServerMessage) (receiver_id : Nat)
    (after : Option Nat) : Option ServerMessage :=
  let afterTime := (after.bind fun id => get_message msgs id).map (·.created_at)
  minByKey (fun message => message.created_at)
    (msgs.filter fun message =>
      message.receiver_id == receiver_id && afterTimeLt afterTime message.created_at)

/-- Repeated device polls against a fixed repository, each passing the id of
the previously returned message as the new cursor.  `pollChain … n` is the
result of the `(n+1)`-th poll. -/
def pollChain (msgs : List ServerMessage) (receiver_id : Nat)
    (after : Option Nat) : Nat → Option ServerMessage
  | 0 => get_next_message msgs receiver_id after
  | n + 1 =>
      match pollChain msgs receiver_id after n with
      | some m => get_next_message msgs receiver_id (some m.id)
      | none => none

/-! ## Device session handler (`src/server/src/handlers/device.rs`)

This handler speaks an older protocol revision: its `ClientCommand` has the
variants `CheckUpdate(DeviceID, Option<MessageID>)` and
`RequestUpdate(MessageID)` (the current `common::protocols::pico` crate
defines neither), and it streams payload bytes only in response to the
second variant. -/

/-- The `ClientCommand` shape `handlers/device.rs` matches on. -/
inductive ClientCommandOld where
  | checkUpdate (device : Nat) (after : Option Nat)
  | requestUpdate (id : Nat)
  deriving DecidableEq, Repr

/-- Observable per-connection events of the session loop. -/
inductive ServerEvent where
  | sentResult (r : RequestUpdateResult)
  | sentPayload (bytes : List Nat)
  | closedConnection
  | panicked
  deriving DecidableEq, Repr

/-- The `Update` header built by the handler:
`lifetime_sec = duration.num_seconds() as u32`, the message id, and the
kind derived from the content. -/
def updateOf (m : ServerMessage) : Update :=
  ⟨m.duration % 2 ^ 32, m.id, m.content.toUpdateKind⟩

/-- `handle_client`: the per-connection loop of `handlers/device.rs`, as a
trace function over the sequence of parsed incoming commands
(`none` = `parse_client_command` failed).  An exhausted input list models
the loop blocking on the next read with no further observable events.
On `CheckUpdate` it sends the encoded result, closing after `NoUpdate`;
payload bytes are sent only on a subsequent `RequestUpdate(id)` command
(`get_message(id).expect(..)` panics when the id is unknown). -/
def handle_client (msgs : List ServerMessage) :
    List (Option ClientCommandOld) → List ServerEvent
  | [] => []
  | none :: _ => [.closedConnection]
  | some (.checkUpdate device after) :: rest =>
      match get_next_message msgs device after with
      | some m => .sentResult (.update (updateOf m)) :: handle_client msgs rest
      | none => [.sentResult .noUpdate, .closedConnection]
  | some (.requestUpdate id) :: rest =>
      match get_message msgs id with
      | some m => .sentPayload m.content.payloadBytes :: handle_client msgs rest
      | none => [.panicked]

/-! ## Helper lemmas: the varint codec -/

theorem varintEncodeGo_fuel (m : Nat) :
    ∀ f f', m < f → m < f' → varintEncodeGo f m = varintEncodeGo f' m := by
  induction m using Nat.strong_induction_on with
  | _ m ih =>
      intro f f' hf hf'
      match f, f' with
      | f + 1, f' + 1 =>
        by_cases hm : m < 128
        · simp [varintEncodeGo, hm]
        · have hdiv : m / 128 < m := Nat.div_lt_self (by omega) (by omega)
          simp only [varintEncodeGo, hm, if_false]
          rw [ih (m / 128) hdiv f f' (by omega) (by omega)]

theorem varintEncode_lt (n : Nat) (h : n < 128) : varintEncode n = [n] := by
  simp [varintEncode, varintEncodeGo, h]

theorem varintEncode_ge (n : Nat) (h : 128 ≤ n) :
    varintEncode n = (n % 128 + 128) :: varintEncode (n / 128) := by
  have hdiv : n / 128 < n := Nat.div_lt_self (by omega) (by omega)
  have hstep : varintEncode n =
      if n < 128 then [n] else (n % 128 + 128) :: varintEncodeGo n (n / 128) := rfl
  rw [hstep, if_neg (Nat.not_lt.mpr h),
    varintEncodeGo_fuel (n / 128) n (n / 128 + 1) (by omega) (by omega)]
  rfl

theorem varintDecodeAux_encode :
    ∀ (f n shift acc : Nat) (r : List Nat), n < 2 ^ (7 * (f + 1)) →
      varintDecodeAux (f + 1) shift acc (varintEncode n ++ r) =
        some (acc + n * 2 ^ shift, r) := by
  intro f
  induction f with
  | zero =>
      intro n shift acc r h
      have hn : n < 128 := by norm_num at h; omega
      rw [varintEncode_lt n hn]
      simp [varintDecodeAux, hn, Nat.mod_eq_of_lt hn]
  | succ f ih =>
      intro n shift acc r h
      by_cases hn : n < 128
      · rw [varintEncode_lt n hn]
        simp [varintDecodeAux, hn, Nat.mod_eq_of_lt hn]
      · push_neg at hn
        rw [varintEncode_ge n hn]
        have hb : ¬ (n % 128 + 128 < 128) := by omega
        have hdiv : n / 128 < 2 ^ (7 * (f + 1)) := by
          rw [Nat.div_lt_iff_lt_mul (by norm_num : 0 < 128)]
          calc n < 2 ^ (7 * (f + 2)) := h
            _ = 2 ^ (7 * (f + 1)) * 128 := by ring
        have hmod : (n % 128 + 128) % 128 = n % 128 := by omega
        simp only [varintDecodeAux, List.cons_append, List.append_eq, hb,
          if_false, hmod]
        rw [ih (n / 128) (shift + 7) (acc + n % 128 * 2 ^ shift) r hdiv]
        congr 2
        have : (2 : Nat) ^ (shift + 7) = 2 ^ shift * 128 := by ring
        rw [this]
        have hsplit : n % 128 * 2 ^ shift + n / 128 * (2 ^ shift * 128) =
            (n % 128 + 128 * (n / 128)) * 2 ^ shift := by ring
        rw [Nat.add_assoc, hsplit, Nat.mod_add_div n 128]

theorem varintDecode32_encode {n : Nat} (h : n < 2 ^ 35) (r : List Nat) :
    varintDecode32 (varintEncode n ++ r) = some (n, r) := by
  have := varintDecodeAux_encode 4 n 0 0 r (by norm_num at h ⊢; omega)
  simpa [varintDecode32] using this

theorem varintDecode32_byte (b : Nat) (hb : b < 128) (l : List Nat) :
    varintDecode32 (b :: l) = some (b, l) := by
  simp [varintDecode32, varintDecodeAux, hb, Nat.mod_eq_of_lt hb]

theorem varintEncode_length :
    ∀ (f n : Nat), n < 2 ^ (7 * (f + 1)) → (varintEncode n).length ≤ f + 1 := by
  intro f
  induction f with
  | zero =>
      intro n h
      have hn : n < 128 := by norm_num at h; omega
      simp [varintEncode_lt n hn]
  | succ f ih =>
      intro n h
      by_cases hn : n < 128
      · simp [varintEncode_lt n hn]
      · push_neg at hn
        rw [varintEncode_ge n hn]
        have hdiv : n / 128 < 2 ^ (7 * (f + 1)) := by
          rw [Nat.div_lt_iff_lt_mul (by norm_num : 0 < 128)]
          calc n < 2 ^ (7 * (f + 2)) := h
            _ = 2 ^ (7 * (f + 1)) * 128 := by ring
        have := ih (n / 128) hdiv
        simp only [List.length_cons]
        omega

theorem varintEncode_length_u32 {n : Nat} (h : n < 2 ^ 32) :
    (varintEncode n).length ≤ 5 := by
  exact varintEncode_length 4 n (by norm_num at h ⊢; omega)

/-! ## Helper lemmas: postcard decoders invert the encoders -/

theorem decodeOptionU32_encode (a : Option Nat) (ha : ∀ x ∈ a, x < 2 ^ 32)
    (r : List Nat) : decodeOptionU32 (encodeOptionU32 a ++ r) = some (a, r) := by
  cases a with
  | none => simp [encodeOptionU32, decodeOptionU32]
  | some x =>
      have hx : x < 2 ^ 35 := by
        have := ha x (by simp)
        omega
      simp [encodeOptionU32, decodeOptionU32, varintDecode32_encode hx]

theorem updateKind_decode_encode (k : UpdateKind) (r : List Nat) :
    UpdateKind.decode (k.encode ++ r) = some (k, r) := by
  cases k with
  | image =>
      simp [UpdateKind.encode, UpdateKind.decode,
        varintDecode32_byte 0 (by norm_num)]
  | text len =>
      simp [UpdateKind.encode, UpdateKind.decode,
        varintDecode32_byte 1 (by norm_num), decodeU8]

theorem update_decode_encode (u : Update) (hu : u.WF) (r : List Nat) :
    Update.decode (u.encode ++ r) = some (u, r) := by
  obtain ⟨h1, h2, _⟩ := hu
  have h1' : u.lifetime_sec < 2 ^ 35 := by omega
  have h2' : u.id < 2 ^ 35 := by omega
  simp [Update.encode, Update.decode, List.append_assoc,
    varintDecode32_encode h1', varintDecode32_encode h2',
    updateKind_decode_encode]

theorem requestUpdateResult_decode_encode (v : RequestUpdateResult)
    (hv : v.WF) (r : List Nat) :
    RequestUpdateResult.decode (v.encode ++ r) = some (v, r) := by
  cases v with
  | noUpdate =>
      simp [RequestUpdateResult.encode, RequestUpdateResult.decode,
        varintDecode32_byte 0 (by norm_num)]
  | update u =>
      have hu : u.WF := hv
      simp [RequestUpdateResult.encode, RequestUpdateResult.decode,
        varintDecode32_byte 1 (by norm_num), update_decode_encode u hu]

theorem clientCommand_decode_encode (c : ClientCommand) (hc : c.WF)
    (r : List Nat) : ClientCommand.decode (c.encode ++ r) = some (c, r) := by
  cases c with
  | requestUpdate device after =>
      obtain ⟨hd, ha⟩ := hc
      have hd' : device < 2 ^ 35 := by omega
      simp [ClientCommand.encode, ClientCommand.decode, List.append_assoc,
        varintDecode32_byte 0 (by norm_num), varintDecode32_encode hd',
        decodeOptionU32_encode after ha]

/-! ## Helper lemmas: encoded payload sizes -/

theorem updateKind_encode_length (k : UpdateKind) : k.encode.length ≤ 2 := by
  cases k <;> simp [UpdateKind.encode]

theorem update_encode_length (u : Update) (hu : u.WF) :
    u.encode.length ≤ 12 := by
  obtain ⟨h1, h2, _⟩ := hu
  have := varintEncode_length_u32 h1
  have := varintEncode_length_u32 h2
  have := updateKind_encode_length u.kind
  simp only [Update.encode, List.length_append]
  omega

theorem requestUpdateResult_encode_length (v : RequestUpdateResult)
    (hv : v.WF) : v.encode.length ≤ RequestUpdateResult.POSTCARD_MAX_SIZE := by
  cases v with
  | noUpdate => simp [RequestUpdateResult.encode, RequestUpdateResult.POSTCARD_MAX_SIZE]
  | update u =>
      have := update_encode_length u hv
      simp only [RequestUpdateResult.encode, List.length_cons,
        RequestUpdateResult.POSTCARD_MAX_SIZE]
      omega

theorem clientCommand_encode_length (c : ClientCommand) (hc : c.WF) :
    c.encode.length ≤ ClientCommand.POSTCARD_MAX_SIZE := by
  cases c with
  | requestUpdate device after =>
      obtain ⟨hd, ha⟩ := hc
      have h1 := varintEncode_length_u32 hd
      have h2 : (encodeOptionU32 after).length ≤ 6 := by
        cases after with
        | none => simp [encodeOptionU32]
        | some x =>
            have := varintEncode_length_u32 (ha x (by simp))
            simp only [encodeOptionU32, List.length_cons]
            omega
      simp only [ClientCommand.encode, List.length_cons, List.length_append,
        ClientCommand.POSTCARD_MAX_SIZE]
      omega

/-! ## Helper lemmas: the transmission layer -/

theorem transmissionReceive_toBytes {α : Type} (maxP : Nat)
    (dec : List Nat → Option α) (v : α) (payload : List Nat)
    (hlen : payload.length ≤ maxP) (hsmall : payload.length < 2 ^ 16)
    (hdec : dec payload = some v) :
    transmissionReceive maxP dec (serdeToBytes payload) =
      (.ok v, 2 + payload.length) := by
  have hmod : payload.length % 2 ^ 16 = payload.length := Nat.mod_eq_of_lt hsmall
  have hdata : fromLeBytes16 (payload.length % 2 ^ 16 % 256)
      (payload.length % 2 ^ 16 / 256) = payload.length := by
    simp only [fromLeBytes16, hmod]
    omega
  simp only [serdeToBytes, leBytes16, List.cons_append, List.nil_append,
    transmissionReceive, hdata]
  rw [if_neg (by omega), if_neg (by omega), List.take_length, hdec]

/-! ## Claim C1 -/

/-- **C1.** For every valid value `v` of type `ClientCommand` or
`RequestUpdateResult`, serializing `v` with the length-prefixed codec
(`SerDe::to_bytes`, as sent by `Transmission::send`) and then deserializing
the produced byte stream with `Transmission::receive` (which calls
`SerDe::from_bytes` on the payload) yields exactly `v` again, consuming
exactly the produced bytes. -/
theorem C1_roundtrip (c : ClientCommand) (r : RequestUpdateResult)
    (hc : c.WF) (hr : r.WF) :
    ClientCommand.receive (ClientCommand.toBytes c) = (.ok c, 2 + c.encode.length) ∧
    RequestUpdateResult.receive (RequestUpdateResult.toBytes r) =
      (.ok r, 2 + r.encode.length) := by
  constructor
  · have hlen : c.encode.length ≤ ClientCommand.POSTCARD_MAX_SIZE :=
      clientCommand_encode_length c hc
    have hdec : ClientCommand.fromBytes c.encode = some c := by
      have h := clientCommand_decode_encode c hc []
      rw [List.append_nil] at h
      simp [ClientCommand.fromBytes, h]
    exact transmissionReceive_toBytes _ _ c c.encode hlen
      (by simp only [ClientCommand.POSTCARD_MAX_SIZE] at hlen; omega) hdec
  · have hlen : r.encode.length ≤ RequestUpdateResult.POSTCARD_MAX_SIZE :=
      requestUpdateResult_encode_length r hr
    have hdec : RequestUpdateResult.fromBytes r.encode = some r := by
      have h := requestUpdateResult_decode_encode r hr []
      rw [List.append_nil] at h
      simp [RequestUpdateResult.fromBytes, h]
    exact transmissionReceive_toBytes _ _ r r.encode hlen
      (by simp only [RequestUpdateResult.POSTCARD_MAX_SIZE] at hlen; omega) hdec

/-- Witness for C1 at concrete values. -/
theorem C1_roundtrip_witness :
    ClientCommand.WF (.requestUpdate 0xcafebabe (some 300)) ∧
    RequestUpdateResult.WF (.update ⟨6000, 7, .text 136⟩) ∧
    ClientCommand.receive
        (ClientCommand.toBytes (.requestUpdate 0xcafebabe (some 300))) =
      (.ok (.requestUpdate 0xcafebabe (some 300)),
        2 + (ClientCommand.encode (.requestUpdate 0xcafebabe (some 300))).length) ∧
    RequestUpdateResult.receive
        (RequestUpdateResult.toBytes (.update ⟨6000, 7, .text 136⟩)) =
      (.ok (.update ⟨6000, 7, .text 136⟩),
        2 + (RequestUpdateResult.encode (.update ⟨6000, 7, .text 136⟩)).length) :=
  ⟨by decide, by decide,
    (C1_roundtrip (.requestUpdate 0xcafebabe (some 300))
      (.update ⟨6000, 7, .text 136⟩) (by decide) (by decide)).1,
    (C1_roundtrip (.requestUpdate 0xcafebabe (some 300))
      (.update ⟨6000, 7, .text 136⟩) (by decide) (by decide)).2⟩

/-! ## Claim C2 -/

/-- **C2.** `Transmission::receive` on an arbitrary incoming byte stream:
if the decoded `u16` length field declares a payload longer than the type's
compile-time maximum payload size, it returns `Error::Length` with the
declared length as `val` and the maximum as `max`, having read only the two
header bytes (no payload bytes); the number of bytes it reads never exceeds
the fixed receive-buffer size `2 + maxPayload`; and otherwise (declared
length within bounds and available) it reads exactly the declared number of
payload bytes and deserializes only those, so any bytes beyond the declared
length cannot influence the result. -/
theorem C2_receive_bounds {α : Type} (maxP : Nat) (dec : List Nat → Option α)
    (b0 b1 : Nat) (rest : List Nat) :
    (maxP < fromLeBytes16 b0 b1 →
      transmissionReceive maxP dec (b0 :: b1 :: rest) =
        (.error (.length (fromLeBytes16 b0 b1) maxP), 2)) ∧
    (transmissionReceive maxP dec (b0 :: b1 :: rest)).2 ≤ 2 + maxP ∧
    (fromLeBytes16 b0 b1 ≤ maxP → fromLeBytes16 b0 b1 ≤ rest.length →
      transmissionReceive maxP dec (b0 :: b1 :: rest) =
        transmissionReceive maxP dec
          (b0 :: b1 :: rest.take (fromLeBytes16 b0 b1)) ∧
      (transmissionReceive maxP dec (b0 :: b1 :: rest)).2 =
        2 + fromLeBytes16 b0 b1) := by
  set L := fromLeBytes16 b0 b1 with hL
  refine ⟨fun h => ?_, ?_, fun h1 h2 => ?_⟩
  · simp only [transmissionReceive]
    rw [if_pos (by omega)]
  · simp only [transmissionReceive]
    by_cases hbig : 2 + L > 2 + maxP
    · rw [if_pos hbig]; omega
    · rw [if_neg hbig]
      by_cases hshort : rest.length < L
      · rw [if_pos hshort]; simp; omega
      · rw [if_neg hshort]
        cases dec (rest.take L) <;> simp <;> omega
  · have htake : (rest.take L).length = L := by
      rw [List.length_take]; omega
    have htaketake : (rest.take L).take L = rest.take L := by
      rw [List.take_take]; simp
    constructor
    · simp only [transmissionReceive]
      rw [if_neg (by omega), if_neg (by omega), if_neg (by omega),
        if_neg (by rw [htake]; omega), htaketake]
    · simp only [transmissionReceive]
      rw [if_neg (by omega), if_neg (by omega)]
      cases dec (rest.take L) <;> simp

/-- Witness for C2: a declared length of `456 > 13` on
`RequestUpdateResult::receive` yields the `Length` error after the two
header bytes, and an in-bounds frame is insensitive to trailing extra
bytes. -/
theorem C2_receive_bounds_witness :
    transmissionReceive RequestUpdateResult.POSTCARD_MAX_SIZE
        RequestUpdateResult.fromBytes (200 :: 1 :: [0]) =
      (.error (.length (fromLeBytes16 200 1) RequestUpdateResult.POSTCARD_MAX_SIZE), 2) ∧
    transmissionReceive RequestUpdateResult.POSTCARD_MAX_SIZE
        RequestUpdateResult.fromBytes (1 :: 0 :: [0, 99, 98]) =
      transmissionReceive RequestUpdateResult.POSTCARD_MAX_SIZE
        RequestUpdateResult.fromBytes
        (1 :: 0 :: [0, 99, 98].take (fromLeBytes16 1 0)) ∧
    (transmissionReceive RequestUpdateResult.POSTCARD_MAX_SIZE
        RequestUpdateResult.fromBytes (1 :: 0 :: [0, 99, 98])).2 =
      2 + fromLeBytes16 1 0 :=
  ⟨(C2_receive_bounds RequestUpdateResult.POSTCARD_MAX_SIZE
      RequestUpdateResult.fromBytes 200 1 [0]).1 (by decide),
    (C2_receive_bounds RequestUpdateResult.POSTCARD_MAX_SIZE
      RequestUpdateResult.fromBytes 1 0 [0, 99, 98]).2.2 (by decide) (by decide)⟩

/-! ## Claim C7 -/

/-- **C7 (counterexample).** The length prefix is *not* big-endian: encoding
`ClientCommand::RequestUpdate(DeviceID(0), None)` produces the bytes
`[3, 0, 0, 0, 0]`, whose first two bytes are the *little-endian* (native on
the supported targets) representation of the payload length 3, not the
big-endian one `[0, 3]`. -/
theorem C7_counterexample :
    ClientCommand.toBytes (.requestUpdate 0 none) = [3, 0, 0, 0, 0] ∧
    (ClientCommand.toBytes (.requestUpdate 0 none)).take 2 ≠
      beBytes16 (ClientCommand.encode (.requestUpdate 0 none)).length := by
  decide

/-- **C7 (amended).** The `u16` length prefix is encoded and decoded in
*native* byte order (`to_ne_bytes` / `from_ne_bytes`), which is
little-endian on both supported targets (thumbv6m RP2040 and x86-64):
for every valid value the first two bytes written by `SerDe::to_bytes` are
`[len % 256, len / 256]` for the payload length `len`, and
`Transmission::receive` recombines them as `b0 + 256 * b1`, recovering
exactly `len`. -/
theorem C7_length_prefix_native_endian (c : ClientCommand)
    (r : RequestUpdateResult) (hc : c.WF) (hr : r.WF) :
    (ClientCommand.toBytes c =
        c.encode.length % 256 :: c.encode.length / 256 :: c.encode ∧
      fromLeBytes16 (c.encode.length % 256) (c.encode.length / 256) =
        c.encode.length) ∧
    (RequestUpdateResult.toBytes r =
        r.encode.length % 256 :: r.encode.length / 256 :: r.encode ∧
      fromLeBytes16 (r.encode.length % 256) (r.encode.length / 256) =
        r.encode.length) := by
  have hcl : c.encode.length ≤ ClientCommand.POSTCARD_MAX_SIZE := clientCommand_encode_length c hc
  have hrl : r.encode.length ≤ RequestUpdateResult.POSTCARD_MAX_SIZE :=
    requestUpdateResult_encode_length r hr
  rw [ClientCommand.POSTCARD_MAX_SIZE] at hcl
  rw [RequestUpdateResult.POSTCARD_MAX_SIZE] at hrl
  have hcm : c.encode.length % 2 ^ 16 = c.encode.length :=
    Nat.mod_eq_of_lt (by omega)
  have hrm : r.encode.length % 2 ^ 16 = r.encode.length :=
    Nat.mod_eq_of_lt (by omega)
  refine ⟨⟨?_, ?_⟩, ⟨?_, ?_⟩⟩
  · simp only [ClientCommand.toBytes, serdeToBytes, leBytes16,
      List.cons_append, List.nil_append, List.cons.injEq, and_true]
    omega
  · simp only [fromLeBytes16]; omega
  · simp only [RequestUpdateResult.toBytes, serdeToBytes, leBytes16,
      List.cons_append, List.nil_append, List.cons.injEq, and_true]
    omega
  · simp only [fromLeBytes16]; omega

/-- Witness for the amended C7 at concrete values. -/
theorem C7_length_prefix_native_endian_witness :
    ClientCommand.toBytes (.requestUpdate 1 none) =
      (ClientCommand.encode (.requestUpdate 1 none)).length % 256 ::
        (ClientCommand.encode (.requestUpdate 1 none)).length / 256 ::
        ClientCommand.encode (.requestUpdate 1 none) ∧
    RequestUpdateResult.toBytes .noUpdate =
      (RequestUpdateResult.encode .noUpdate).length % 256 ::
        (RequestUpdateResult.encode .noUpdate).length / 256 ::
        RequestUpdateResult.encode .noUpdate :=
  ⟨(C7_length_prefix_native_endian (.requestUpdate 1 none) .noUpdate
      (by decide) (by decide)).1.1,
    (C7_length_prefix_native_endian (.requestUpdate 1 none) .noUpdate
      (by decide) (by decide)).2.1⟩

/-! ## Helper lemmas: `min_by_key` and `position` models -/

theorem minByKey_eq_none {α : Type} {key : α → Nat} {l : List α} :
    minByKey key l = none ↔ l = [] := by
  cases l with
  | nil => simp [minByKey]
  | cons x xs =>
      simp only [minByKey]
      cases minByKey key xs with
      | none => simp
      | some m => by_cases h : key m < key x <;> simp [h]

theorem minByKey_spec {α : Type} {key : α → Nat} :
    ∀ {l : List α} {m : α}, minByKey key l = some m →
      m ∈ l ∧ ∀ x ∈ l, key m ≤ key x := by
  intro l
  induction l with
  | nil => intro m h; simp [minByKey] at h
  | cons a as ih =>
      intro m h
      cases hrec : minByKey key as with
      | none =>
          have hnil : as = [] := minByKey_eq_none.mp hrec
          subst hnil
          simp only [minByKey] at h
          obtain rfl : a = m := by injection h
          simp
      | some m' =>
          have hval : minByKey key (a :: as) =
              if key m' < key a then some m' else some a := by
            simp only [minByKey, hrec]
          rw [hval] at h
          obtain ⟨hmem', hmin'⟩ := ih hrec
          by_cases hlt : key m' < key a
          · rw [if_pos hlt] at h
            obtain rfl : m' = m := by injection h
            refine ⟨List.mem_cons_of_mem a hmem', ?_⟩
            intro x hx
            rcases List.mem_cons.mp hx with rfl | hx'
            · omega
            · exact hmin' x hx'
          · rw [if_neg hlt] at h
            obtain rfl : a = m := by injection h
            refine ⟨List.mem_cons_self a as, ?_⟩
            intro x hx
            rcases List.mem_cons.mp hx with rfl | hx'
            · omega
            · have := hmin' x hx'
              omega

theorem minByKeyIdx_eq_none {α : Type} {key : α → Nat} {l : List α} :
    minByKeyIdx key l = none ↔ l = [] := by
  cases l with
  | nil => simp [minByKeyIdx]
  | cons x xs =>
      simp only [minByKeyIdx]
      cases minByKeyIdx key xs with
      | none => simp
      | some jm => by_cases h : key jm.2 < key x <;> simp [h]

theorem minByKeyIdx_spec {α : Type} {key : α → Nat} :
    ∀ {l : List α} {j : Nat} {m : α}, minByKeyIdx key l = some (j, m) →
      l[j]? = some m ∧ (∀ x ∈ l, key m ≤ key x) ∧
        ∀ i x, i < j → l[i]? = some x → key m < key x := by
  intro l
  induction l with
  | nil => intro j m h; simp [minByKeyIdx] at h
  | cons a as ih =>
      intro j m h
      cases hrec : minByKeyIdx key as with
      | none =>
          have hnil : as = [] := minByKeyIdx_eq_none.mp hrec
          subst hnil
          simp only [minByKeyIdx] at h
          obtain ⟨rfl, rfl⟩ : 0 = j ∧ a = m := by
            injection h with h'
            exact ⟨congrArg Prod.fst h', congrArg Prod.snd h'⟩
          simp
      | some jm =>
          obtain ⟨j', m'⟩ := jm
          have hval : minByKeyIdx key (a :: as) =
              if key m' < key a then some (j' + 1, m') else some (0, a) := by
            simp only [minByKeyIdx, hrec]
          rw [hval] at h
          obtain ⟨hget', hmin', hfirst'⟩ := ih hrec
          by_cases hlt : key m' < key a
          · rw [if_pos hlt] at h
            obtain ⟨rfl, rfl⟩ : j' + 1 = j ∧ m' = m := by
              injection h with h'
              exact ⟨congrArg Prod.fst h', congrArg Prod.snd h'⟩
            refine ⟨by simpa using hget', ?_, ?_⟩
            · intro x hx
              rcases List.mem_cons.mp hx with rfl | hx'
              · omega
              · exact hmin' x hx'
            · intro i x hi hx
              cases i with
              | zero =>
                  simp only [List.getElem?_cons_zero] at hx
                  obtain rfl : a = x := by injection hx
                  exact hlt
              | succ i' =>
                  simp only [List.getElem?_cons_succ] at hx
                  exact hfirst' i' x (by omega) hx
          · rw [if_neg hlt] at h
            obtain ⟨rfl, rfl⟩ : 0 = j ∧ a = m := by
              injection h with h'
              exact ⟨congrArg Prod.fst h', congrArg Prod.snd h'⟩
            refine ⟨by simp, ?_, ?_⟩
            · intro x hx
              rcases List.mem_cons.mp hx with rfl | hx'
              · omega
              · have := hmin' x hx'
                omega
            · intro i x hi _
              omega

theorem findIdxFirst_spec {α : Type} {p : α → Bool} :
    ∀ {l : List α} {j : Nat} {m : α}, findIdxFirst p l = some (j, m) →
      l[j]? = some m ∧ p m = true ∧
        ∀ i x, i < j → l[i]? = some x → p x = false := by
  intro l
  induction l with
  | nil => intro j m h; simp [findIdxFirst] at h
  | cons a as ih =>
      intro j m h
      simp only [findIdxFirst] at h
      by_cases hp : p a
      · rw [if_pos hp] at h
        obtain ⟨rfl, rfl⟩ : 0 = j ∧ a = m := by
          injection h with h'
          exact ⟨congrArg Prod.fst h', congrArg Prod.snd h'⟩
        refine ⟨by simp, hp, ?_⟩
        intro i x hi _
        omega
      · rw [if_neg hp] at h
        cases hrec : findIdxFirst p as with
        | none => rw [hrec] at h; simp [Option.map] at h
        | some jm =>
            obtain ⟨j', m'⟩ := jm
            rw [hrec] at h
            simp only [Option.map] at h
            obtain ⟨rfl, rfl⟩ : j' + 1 = j ∧ m' = m := by
              injection h with h'
              exact ⟨congrArg Prod.fst h', congrArg Prod.snd h'⟩
            obtain ⟨hget', hp', hfirst'⟩ := ih hrec
            refine ⟨by simpa using hget', hp', ?_⟩
            intro i x hi hx
            cases i with
            | zero =>
                simp only [List.getElem?_cons_zero] at hx
                obtain rfl : a = x := by injection hx
                exact Bool.eq_false_iff.mpr hp
            | succ i' =>
                simp only [List.getElem?_cons_succ] at hx
                exact hfirst' i' x (by omega) hx

theorem findIdxFirst_eq_none {α : Type} {p : α → Bool} :
    ∀ {l : List α}, findIdxFirst p l = none → ∀ x ∈ l, p x = false := by
  intro l
  induction l with
  | nil => intro _ x hx; simp at hx
  | cons a as ih =>
      intro h x hx
      simp only [findIdxFirst] at h
      by_cases hp : p a
      · rw [if_pos hp] at h; simp at h
      · rw [if_neg hp] at h
        rcases List.mem_cons.mp hx with rfl | hx'
        · exact Bool.eq_false_iff.mpr hp
        · cases hrec : findIdxFirst p as with
          | none => exact ih hrec x hx'
          | some jm => rw [hrec] at h; simp at h

/-! ## Claim C3 -/

/-- **C3.** Write-path slot selection: for every non-empty slot array and
every current time, `Messages::next_available_message` returns a slot
(never failing or blocking); if at least one slot is inactive it returns the
inactive slot with the lowest index (every slot at a smaller index is
active); otherwise it returns the slot with the smallest `updated_at`,
choosing the lowest index when several slots share that smallest
`updated_at` (every slot at a smaller index has a strictly larger
`updated_at`). -/
theorem C3_next_available_slot (now : Nat) (metas : List MessageMeta)
    (hne : metas ≠ []) :
    ∃ j m, next_available_message now metas = some (j, m) ∧
      metas[j]? = some m ∧
      ((∃ x ∈ metas, x.is_active now = false) →
        m.is_active now = false ∧
          ∀ i x, i < j → metas[i]? = some x → x.is_active now = true) ∧
      ((∀ x ∈ metas, x.is_active now = true) →
        (∀ x ∈ metas, m.updated_at ≤ x.updated_at) ∧
          ∀ i x, i < j → metas[i]? = some x → m.updated_at < x.updated_at) := by
  cases hfi : findIdxFirst (fun m => ! m.is_active now) metas with
  | some q =>
      obtain ⟨j, m⟩ := q
      obtain ⟨hget, hp, hfirst⟩ := findIdxFirst_spec hfi
      have hmfalse : m.is_active now = false := by simpa using hp
      refine ⟨j, m, by simp only [next_available_message, hfi], hget, ?_, ?_⟩
      · intro _
        refine ⟨hmfalse, ?_⟩
        intro i x hi hx
        have := hfirst i x hi hx
        simpa using this
      · intro hall
        exfalso
        have hm : m ∈ metas := by
          have hlt : j < metas.length := by
            by_contra hge
            rw [List.getElem?_eq_none (by omega)] at hget
            exact Option.noConfusion hget
          have := List.getElem?_eq_getElem hlt
          rw [this] at hget
          obtain rfl : metas[j] = m := by injection hget
          exact List.getElem_mem hlt
        rw [hall m hm] at hmfalse
        exact Bool.noConfusion hmfalse
  | none =>
      have hall : ∀ x ∈ metas, x.is_active now = true := by
        intro x hx
        have := findIdxFirst_eq_none hfi x hx
        simpa using this
      cases hmin : minByKeyIdx (fun m => m.updated_at) metas with
      | none => exact absurd (minByKeyIdx_eq_none.mp hmin) hne
      | some q =>
          obtain ⟨j, m⟩ := q
          obtain ⟨hget, hmin2, hfirst⟩ := minByKeyIdx_spec hmin
          refine ⟨j, m, by simp only [next_available_message, hfi, hmin], hget,
            ?_, fun _ => ⟨hmin2, hfirst⟩⟩
          rintro ⟨x, hx, hfalse⟩
          rw [hall x hx] at hfalse
          exact Bool.noConfusion hfalse

/-- Witness for C3: at `now = 10`, with slot 0 active and slot 1 inactive,
the inactive slot 1 is selected. -/
theorem C3_next_available_slot_witness :
    ([⟨100, 5⟩, ⟨0, 0⟩] : List MessageMeta) ≠ [] ∧
    ∃ j m, next_available_message 10 [⟨100, 5⟩, ⟨0, 0⟩] = some (j, m) ∧
      ([⟨100, 5⟩, ⟨0, 0⟩] : List MessageMeta)[j]? = some m ∧
      ((∃ x ∈ ([⟨100, 5⟩, ⟨0, 0⟩] : List MessageMeta), x.is_active 10 = false) →
        m.is_active 10 = false ∧
          ∀ i x, i < j → ([⟨100, 5⟩, ⟨0, 0⟩] : List MessageMeta)[i]? = some x →
            x.is_active 10 = true) ∧
      ((∀ x ∈ ([⟨100, 5⟩, ⟨0, 0⟩] : List MessageMeta), x.is_active 10 = true) →
        (∀ x ∈ ([⟨100, 5⟩, ⟨0, 0⟩] : List MessageMeta),
            m.updated_at ≤ x.updated_at) ∧
          ∀ i x, i < j → ([⟨100, 5⟩, ⟨0, 0⟩] : List MessageMeta)[i]? = some x →
            m.updated_at < x.updated_at) :=
  ⟨by decide, C3_next_available_slot 10 [⟨100, 5⟩, ⟨0, 0⟩] (by decide)⟩

/-! ## Claim C4 -/

theorem is_active_iff {m : MessageMeta} {now : Nat} :
    m.is_active now = true ↔ now < m.updated_at + m.lifetime := by
  simp [MessageMeta.is_active]

/-- **C4.** Read-path next-to-display selection
(`Messages::next_display_message_generic`): the result is `none` exactly
when no slot is active; a returned slot is always active
(`now < updated_at + lifetime`, so an expired slot is never returned);
if some active slot has `updated_at` strictly greater than `last_shown` the
returned slot is such a slot with the smallest `updated_at`; otherwise the
returned slot has the smallest `updated_at` among all active slots. -/
theorem C4_next_display_message (now last : Nat) (slots : List MessageMeta) :
    (next_display_message_generic now last slots = none ↔
      ∀ x ∈ slots, x.is_active now = false) ∧
    ∀ m, next_display_message_generic now last slots = some m →
      m ∈ slots ∧ now < m.updated_at + m.lifetime ∧
      ((∃ x ∈ slots, x.is_active now = true ∧ last < x.updated_at) →
        last < m.updated_at ∧
          ∀ x ∈ slots, x.is_active now = true → last < x.updated_at →
            m.updated_at ≤ x.updated_at) ∧
      ((∀ x ∈ slots, x.is_active now = true → x.updated_at ≤ last) →
        ∀ x ∈ slots, x.is_active now = true → m.updated_at ≤ x.updated_at) := by
  have hmem1 : ∀ x : MessageMeta,
      x ∈ (slots.filter fun m => m.is_active now && decide (last < m.updated_at)) ↔
        x ∈ slots ∧ x.is_active now = true ∧ last < x.updated_at := by
    intro x
    simp [List.mem_filter]
  have hmema : ∀ x : MessageMeta,
      x ∈ (slots.filter fun m => m.is_active now) ↔
        x ∈ slots ∧ x.is_active now = true := by
    intro x
    simp [List.mem_filter]
  cases h1 : minByKey (fun m => m.updated_at)
      (slots.filter fun m => m.is_active now && decide (last < m.updated_at)) with
  | some m0 =>
      obtain ⟨hmem, hmin⟩ := minByKey_spec h1
      obtain ⟨hslots, hact, hnewer⟩ := (hmem1 m0).mp hmem
      have heval : next_display_message_generic now last slots = some m0 := by
        simp only [next_display_message_generic, h1]
      rw [heval]
      constructor
      · constructor
        · intro hc; exact Option.noConfusion hc
        · intro hallfalse
          rw [hallfalse m0 hslots] at hact
          exact Bool.noConfusion hact
      · intro m hm
        obtain rfl : m0 = m := by injection hm
        refine ⟨hslots, is_active_iff.mp hact, ?_, ?_⟩
        · intro _
          refine ⟨hnewer, ?_⟩
          intro x hx hxact hxnewer
          exact hmin x ((hmem1 x).mpr ⟨hx, hxact, hxnewer⟩)
        · intro hstale
          exfalso
          have := hstale m0 hslots hact
          omega
  | none =>
      have hempty1 : ∀ x ∈ slots, x.is_active now = true → x.updated_at ≤ last := by
        intro x hx hxact
        by_contra hgt
        have : x ∈ ([] : List MessageMeta) := by
          rw [← minByKey_eq_none.mp h1]
          exact (hmem1 x).mpr ⟨hx, hxact, by omega⟩
        simp at this
      cases h2 : minByKey (fun m => m.updated_at)
          (slots.filter fun m => m.is_active now) with
      | some m0 =>
          obtain ⟨hmem, hmin⟩ := minByKey_spec h2
          obtain ⟨hslots, hact⟩ := (hmema m0).mp hmem
          have heval : next_display_message_generic now last slots = some m0 := by
            simp only [next_display_message_generic, h1, h2]
          rw [heval]
          constructor
          · constructor
            · intro hc; exact Option.noConfusion hc
            · intro hallfalse
              rw [hallfalse m0 hslots] at hact
              exact Bool.noConfusion hact
          · intro m hm
            obtain rfl : m0 = m := by injection hm
            refine ⟨hslots, is_active_iff.mp hact, ?_, ?_⟩
            · rintro ⟨x, hx, hxact, hxnewer⟩
              exfalso
              have := hempty1 x hx hxact
              omega
            · intro _
              intro x hx hxact
              exact hmin x ((hmema x).mpr ⟨hx, hxact⟩)
      | none =>
          have hallfalse : ∀ x ∈ slots, x.is_active now = false := by
            intro x hx
            by_contra hxact
            have hxact' : x.is_active now = true := by
              cases hb : x.is_active now
              · exact absurd hb hxact
              · rfl
            have : x ∈ ([] : List MessageMeta) := by
              rw [← minByKey_eq_none.mp h2]
              exact (hmema x).mpr ⟨hx, hxact'⟩
            simp at this
          have heval : next_display_message_generic now last slots = none := by
            simp only [next_display_message_generic, h1, h2]
          rw [heval]
          exact ⟨⟨fun _ => hallfalse, fun _ => rfl⟩,
            fun m hm => Option.noConfusion hm⟩

/-- Witness for C4: at `now = 10`, `last_shown = 3`, the slot updated at 4
is returned; it is active and is the minimal active slot newer than 3. -/
theorem C4_next_display_message_witness :
    next_display_message_generic 10 3 [⟨100, 3⟩, ⟨100, 5⟩, ⟨100, 4⟩] =
      some ⟨100, 4⟩ ∧
    (⟨100, 4⟩ : MessageMeta) ∈ [⟨100, 3⟩, ⟨100, 5⟩, ⟨100, 4⟩] ∧
    (10 : Nat) < 4 + 100 ∧ (3 : Nat) < 4 := by
  have heval : next_display_message_generic 10 3 [⟨100, 3⟩, ⟨100, 5⟩, ⟨100, 4⟩] =
      some ⟨100, 4⟩ := by decide
  have h := (C4_next_display_message 10 3 [⟨100, 3⟩, ⟨100, 5⟩, ⟨100, 4⟩]).2
    ⟨100, 4⟩ heval
  exact ⟨heval, h.1, h.2.1,
    (h.2.2.1 ⟨⟨100, 4⟩, by decide, by decide, by decide⟩).1⟩

/-! ## Helper lemmas: sorted views of the active slots (for the rotation) -/

theorem getElem?_some_mem {α : Type} {l : List α} {i : Nat} {a : α}
    (h : l[i]? = some a) : a ∈ l := by
  have hlt : i < l.length := by
    by_contra hge
    rw [List.getElem?_eq_none (by omega)] at h
    exact Option.noConfusion h
  rw [List.getElem?_eq_getElem hlt] at h
  obtain rfl : l[i] = a := by injection h
  exact List.getElem_mem hlt

theorem sorted_updated_at_inj {l : List MessageMeta}
    (h : l.Pairwise fun a b => a.updated_at < b.updated_at) :
    ∀ a ∈ l, ∀ b ∈ l, a.updated_at = b.updated_at → a = b := by
  induction l with
  | nil => intro a ha; simp at ha
  | cons x xs ih =>
      rw [List.pairwise_cons] at h
      obtain ⟨hx, hxs⟩ := h
      intro a ha b hb heq
      rcases List.mem_cons.mp ha with rfl | ha' <;>
        rcases List.mem_cons.mp hb with rfl | hb'
      · rfl
      · exact absurd heq (by have := hx b hb'; omega)
      · exact absurd heq (by have := hx a ha'; omega)
      · exact ih hxs a ha' b hb' heq

theorem find?_all_true {α : Type} {p : α → Bool} :
    ∀ {l : List α}, (∀ x ∈ l, p x = true) → l.find? p = l[0]? := by
  intro l h
  cases l with
  | nil => rfl
  | cons a as =>
      rw [List.find?_cons_of_pos _ (h a (List.mem_cons_self a as))]
      simp

theorem sorted_find?_min {last : Nat} :
    ∀ {sa : List MessageMeta},
      sa.Pairwise (fun a b => a.updated_at < b.updated_at) →
      ∀ {m2 : MessageMeta},
        sa.find? (fun x => decide (last < x.updated_at)) = some m2 →
        ∀ x ∈ sa, last < x.updated_at → m2.updated_at ≤ x.updated_at := by
  intro sa
  induction sa with
  | nil => intro _ m2 h; simp at h
  | cons a as ih =>
      intro hs m2 h x hx hxgt
      rw [List.pairwise_cons] at hs
      obtain ⟨ha, has⟩ := hs
      by_cases hpa : last < a.updated_at
      · rw [List.find?_cons_of_pos _ (by simpa using hpa)] at h
        obtain rfl : a = m2 := by injection h
        rcases List.mem_cons.mp hx with rfl | hx'
        · omega
        · have := ha x hx'
          omega
      · rw [List.find?_cons_of_neg _ (by simpa using hpa)] at h
        rcases List.mem_cons.mp hx with rfl | hx'
        · omega
        · exact ih has h x hx' hxgt

theorem sorted_find?_gt :
    ∀ {sa : List MessageMeta},
      sa.Pairwise (fun a b => a.updated_at < b.updated_at) →
      ∀ (i : Nat) (m : MessageMeta), sa[i]? = some m →
        sa.find? (fun x => decide (m.updated_at < x.updated_at)) = sa[i + 1]? := by
  intro sa
  induction sa with
  | nil => intro _ i m h; simp at h
  | cons a as ih =>
      intro hs i m h
      rw [List.pairwise_cons] at hs
      obtain ⟨ha, has⟩ := hs
      cases i with
      | zero =>
          simp only [List.getElem?_cons_zero] at h
          obtain rfl : a = m := by injection h
          rw [List.find?_cons_of_neg _ (by simp)]
          cases as with
          | nil => rfl
          | cons a2 as2 =>
              rw [List.find?_cons_of_pos _
                (by simpa using ha a2 (List.mem_cons_self a2 as2))]
              simp
      | succ i' =>
          simp only [List.getElem?_cons_succ] at h
          have hm : m ∈ as := getElem?_some_mem h
          rw [List.find?_cons_of_neg _ (by simp; have := ha m hm; omega)]
          simpa using ih has i' m h

/-- If a strictly-`updated_at`-sorted list `sa` is a permutation of the
active slots and its first element with `updated_at > last` is `m2`, the
display selection returns exactly `m2`. -/
theorem next_display_sorted_found (now last : Nat)
    (slots sa : List MessageMeta)
    (hperm : (slots.filter fun m => m.is_active now).Perm sa)
    (hsorted : sa.Pairwise fun a b => a.updated_at < b.updated_at)
    {m2 : MessageMeta}
    (hfind : sa.find? (fun x => decide (last < x.updated_at)) = some m2) :
    next_display_message_generic now last slots = some m2 := by
  have hsa_iff : ∀ x : MessageMeta,
      x ∈ sa ↔ x ∈ slots ∧ x.is_active now = true := by
    intro x
    rw [← hperm.mem_iff]
    simp [List.mem_filter]
  have hmem1 : ∀ x : MessageMeta,
      x ∈ (slots.filter fun m => m.is_active now && decide (last < m.updated_at)) ↔
        x ∈ sa ∧ last < x.updated_at := by
    intro x
    rw [hsa_iff]
    simp [List.mem_filter]
    tauto
  have hm2sa : m2 ∈ sa := List.mem_of_find?_eq_some hfind
  have hm2gt : last < m2.updated_at := by
    have := List.find?_some hfind
    simpa using this
  cases h1 : minByKey (fun m => m.updated_at)
      (slots.filter fun m => m.is_active now && decide (last < m.updated_at)) with
  | none =>
      exfalso
      have := minByKey_eq_none.mp h1
      have hm2f : m2 ∈ (slots.filter fun m =>
          m.is_active now && decide (last < m.updated_at)) :=
        (hmem1 m2).mpr ⟨hm2sa, hm2gt⟩
      rw [this] at hm2f
      simp at hm2f
  | some m1 =>
      obtain ⟨hmem, hmin⟩ := minByKey_spec h1
      obtain ⟨hm1sa, hm1gt⟩ := (hmem1 m1).mp hmem
      have h12 : m1.updated_at ≤ m2.updated_at :=
        hmin m2 ((hmem1 m2).mpr ⟨hm2sa, hm2gt⟩)
      have h21 : m2.updated_at ≤ m1.updated_at :=
        sorted_find?_min hsorted hfind m1 hm1sa hm1gt
      have : m1 = m2 :=
        sorted_updated_at_inj hsorted m1 hm1sa m2 hm2sa (by omega)
      subst this
      simp only [next_display_message_generic, h1]

/-- If no element of the sorted active view exceeds `last`, the display
selection wraps around to the head of the sorted view (the oldest active
slot), or `none` when there is no active slot. -/
theorem next_display_sorted_wrap (now last : Nat)
    (slots sa : List MessageMeta)
    (hperm : (slots.filter fun m => m.is_active now).Perm sa)
    (hsorted : sa.Pairwise fun a b => a.updated_at < b.updated_at)
    (hfind : sa.find? (fun x => decide (last < x.updated_at)) = none) :
    next_display_message_generic now last slots = sa[0]? := by
  have hsa_iff : ∀ x : MessageMeta,
      x ∈ sa ↔ x ∈ slots ∧ x.is_active now = true := by
    intro x
    rw [← hperm.mem_iff]
    simp [List.mem_filter]
  have hstale : ∀ x ∈ sa, ¬ last < x.updated_at := by
    intro x hx
    have := List.find?_eq_none.mp hfind x hx
    simpa using this
  have hf1 : (slots.filter fun m =>
      m.is_active now && decide (last < m.updated_at)) = [] := by
    rw [List.eq_nil_iff_forall_not_mem]
    intro x hx
    rw [List.mem_filter] at hx
    obtain ⟨hxs, hxb⟩ := hx
    simp only [Bool.and_eq_true, decide_eq_true_eq] at hxb
    exact hstale x ((hsa_iff x).mpr ⟨hxs, hxb.1⟩) hxb.2
  have h1 : minByKey (fun m => m.updated_at)
      (slots.filter fun m => m.is_active now && decide (last < m.updated_at)) =
        none := by
    rw [hf1]; rfl
  cases sa with
  | nil =>
      have hfa : (slots.filter fun m => m.is_active now) = [] :=
        hperm.eq_nil
      have h2 : minByKey (fun m => m.updated_at)
          (slots.filter fun m => m.is_active now) = none := by
        rw [hfa]; rfl
      simp only [next_display_message_generic, h1, h2]
      rfl
  | cons h t =>
      cases h2 : minByKey (fun m => m.updated_at)
          (slots.filter fun m => m.is_active now) with
      | none =>
          exfalso
          have := minByKey_eq_none.mp h2
          have hh : h ∈ (slots.filter fun m => m.is_active now) :=
            hperm.mem_iff.mpr (List.mem_cons_self h t)
          rw [this] at hh
          simp at hh
      | some m1 =>
          obtain ⟨hmem, hmin⟩ := minByKey_spec h2
          have hm1sa : m1 ∈ h :: t := hperm.mem_iff.mp hmem
          have hhmin : ∀ x ∈ h :: t, h.updated_at ≤ x.updated_at := by
            rw [List.pairwise_cons] at hsorted
            intro x hx
            rcases List.mem_cons.mp hx with rfl | hx'
            · omega
            · have := hsorted.1 x hx'
              omega
          have h1h : m1.updated_at ≤ h.updated_at :=
            hmin h (hperm.mem_iff.mpr (List.mem_cons_self h t))
          have hh1 : h.updated_at ≤ m1.updated_at := hhmin m1 hm1sa
          have : m1 = h :=
            sorted_updated_at_inj hsorted m1 hm1sa h
              (List.mem_cons_self h t) (by omega)
          subst this
          simp only [next_display_message_generic, h1, h2,
            List.getElem?_cons_zero]

/-! ## Claim C5 -/

/-- **C5.** Rotation completeness: fix a cache state and time whose active
slots have pairwise distinct `updated_at` values, presented as the
strictly-sorted list `sa` (a permutation of the active slots, so `sa` has
exactly the K active slots in increasing `updated_at` order).  Starting
from any `last_shown` older than every active slot, the chained calls to
`next_display_message_generic` (each passing the returned slot's
`updated_at` as the next `last_shown`) return `sa[0], sa[1], …, sa[K-1]` in
order — each active slot exactly once, in increasing `updated_at` order —
and the (K+1)-th call returns `sa[0]`, the slot with the smallest
`updated_at`, again. -/
theorem C5_rotation_completeness (now last0 : Nat)
    (slots sa : List MessageMeta)
    (hperm : (slots.filter fun m => m.is_active now).Perm sa)
    (hsorted : sa.Pairwise fun a b => a.updated_at < b.updated_at)
    (hlast0 : ∀ x ∈ sa, last0 < x.updated_at) :
    (∀ i, i < sa.length → rotation now last0 slots i = sa[i]?) ∧
    rotation now last0 slots sa.length = sa[0]? := by
  have hpart1 : ∀ i, i < sa.length → rotation now last0 slots i = sa[i]? := by
    intro i
    induction i with
    | zero =>
        intro hi
        have hfind : sa.find? (fun x => decide (last0 < x.updated_at)) = sa[0]? :=
          find?_all_true fun x hx => by simpa using hlast0 x hx
        obtain ⟨m0, hm0⟩ : ∃ m0, sa[0]? = some m0 :=
          ⟨_, List.getElem?_eq_getElem hi⟩
        have := next_display_sorted_found now last0 slots sa hperm hsorted
          (by rw [hfind, hm0])
        simp only [rotation, this, hm0]
    | succ i' ih =>
        intro hi
        have hi' : i' < sa.length := by omega
        have hroti : rotation now last0 slots i' = sa[i']? := ih hi'
        obtain ⟨mi, hmi⟩ : ∃ mi, sa[i']? = some mi :=
          ⟨_, List.getElem?_eq_getElem hi'⟩
        obtain ⟨mi1, hmi1⟩ : ∃ mi1, sa[i' + 1]? = some mi1 :=
          ⟨_, List.getElem?_eq_getElem hi⟩
        have hfind := sorted_find?_gt hsorted i' mi hmi
        have hnext := next_display_sorted_found now mi.updated_at slots sa
          hperm hsorted (by rw [hfind, hmi1])
        rw [hmi1]
        simp only [rotation, hroti, hmi, hnext]
  refine ⟨hpart1, ?_⟩
  cases hlen : sa.length with
  | zero =>
      have hnil : sa = [] := List.length_eq_zero.mp hlen
      subst hnil
      have hfind : ([] : List MessageMeta).find?
          (fun x => decide (last0 < x.updated_at)) = none := rfl
      have := next_display_sorted_wrap now last0 slots [] hperm hsorted hfind
      simpa only [rotation] using this
  | succ n =>
      have hn : n < sa.length := by omega
      have hrotn : rotation now last0 slots n = sa[n]? := hpart1 n hn
      obtain ⟨mn, hmn⟩ : ∃ mn, sa[n]? = some mn :=
        ⟨_, List.getElem?_eq_getElem hn⟩
      have hfind := sorted_find?_gt hsorted n mn hmn
      rw [List.getElem?_eq_none (by omega)] at hfind
      have hwrap := next_display_sorted_wrap now mn.updated_at slots sa
        hperm hsorted hfind
      simp only [rotation, hrotn, hmn, hwrap]

/-- Witness for C5: three active slots updated at 3, 4, 5 (plus one
inactive slot); starting from `last_shown = 0` the rotation shows them in
the order 3, 4, 5 and the fourth call wraps to 3. -/
theorem C5_rotation_completeness_witness :
    rotation 10 0 [⟨100, 5⟩, ⟨100, 3⟩, ⟨0, 0⟩, ⟨100, 4⟩] 0 =
      ([⟨100, 3⟩, ⟨100, 4⟩, ⟨100, 5⟩] : List MessageMeta)[0]? ∧
    rotation 10 0 [⟨100, 5⟩, ⟨100, 3⟩, ⟨0, 0⟩, ⟨100, 4⟩] 1 =
      ([⟨100, 3⟩, ⟨100, 4⟩, ⟨100, 5⟩] : List MessageMeta)[1]? ∧
    rotation 10 0 [⟨100, 5⟩, ⟨100, 3⟩, ⟨0, 0⟩, ⟨100, 4⟩] 2 =
      ([⟨100, 3⟩, ⟨100, 4⟩, ⟨100, 5⟩] : List MessageMeta)[2]? ∧
    rotation 10 0 [⟨100, 5⟩, ⟨100, 3⟩, ⟨0, 0⟩, ⟨100, 4⟩] 3 =
      ([⟨100, 3⟩, ⟨100, 4⟩, ⟨100, 5⟩] : List MessageMeta)[0]? := by
  have h := C5_rotation_completeness 10 0
    [⟨100, 5⟩, ⟨100, 3⟩, ⟨0, 0⟩, ⟨100, 4⟩]
    [⟨100, 3⟩, ⟨100, 4⟩, ⟨100, 5⟩]
    (by decide) (by decide) (by decide)
  exact ⟨h.1 0 (by decide), h.1 1 (by decide), h.1 2 (by decide), h.2⟩

/-! ## Claim C6 -/

/-- **C6.** `RequestUpdateResult::check_valid` returns the `Length` error
exactly when the result is an `Update` of kind `Text(length)` with
`length > TEXT_BUFFER_SIZE` (the error carries the length as `val` and
`TEXT_BUFFER_SIZE` as `max`), and `Ok(())` in every other case; and
`Socket::request_update` returns the decoded result only when
`check_valid` succeeds, so every `Update` it hands on (and hence every
`Update` reaching `handle_update`) with kind `Text(length)` satisfies
`length ≤ TEXT_BUFFER_SIZE`, which makes the `length`-sized read into the
`TEXT_BUFFER_SIZE`-sized text buffer in bounds. -/
theorem C6_text_length_validation (r : RequestUpdateResult) :
    (∀ lt id len, r = .update ⟨lt, id, .text len⟩ → TEXT_BUFFER_SIZE < len →
      r.check_valid = .error (.length len TEXT_BUFFER_SIZE)) ∧
    (∀ lt id len, r = .update ⟨lt, id, .text len⟩ → len ≤ TEXT_BUFFER_SIZE →
      r.check_valid = .ok ()) ∧
    (r = .noUpdate → r.check_valid = .ok ()) ∧
    (∀ lt id, r = .update ⟨lt, id, .image⟩ → r.check_valid = .ok ()) ∧
    (∀ r', Socket.request_update_check r = .ok r' → r' = r) ∧
    (∀ lt id len, Socket.request_update_check r = .ok (.update ⟨lt, id, .text len⟩) →
      len ≤ TEXT_BUFFER_SIZE) := by
  have hpass : ∀ r', Socket.request_update_check r = .ok r' →
      r' = r ∧ r.check_valid = .ok () := by
    intro r' h
    cases hcv : r.check_valid with
    | error e =>
        simp only [Socket.request_update_check, hcv] at h
        exact Except.noConfusion h
    | ok u =>
        cases u
        simp only [Socket.request_update_check, hcv] at h
        obtain rfl : r = r' := by injection h
        exact ⟨rfl, rfl⟩
  refine ⟨?_, ?_, ?_, ?_, fun r' h => (hpass r' h).1, ?_⟩
  · rintro lt id len rfl hgt
    simp only [RequestUpdateResult.check_valid]
    rw [if_pos (by omega)]
  · rintro lt id len rfl hle
    simp only [RequestUpdateResult.check_valid]
    rw [if_neg (by omega)]
  · rintro rfl; rfl
  · rintro lt id rfl; rfl
  · intro lt id len h
    obtain ⟨rfl, hcv⟩ := hpass _ h
    simp only [RequestUpdateResult.check_valid] at hcv
    by_contra hgt
    rw [if_pos (by omega)] at hcv
    exact Except.noConfusion hcv

/-- Witness for C6: a `Text(200)` update is rejected with
`Length { val: 200, max: 136 }`, and a `Text(100)` update that passes
`request_update`'s validation indeed satisfies `100 ≤ TEXT_BUFFER_SIZE`. -/
theorem C6_text_length_validation_witness :
    RequestUpdateResult.check_valid (.update ⟨60, 1, .text 200⟩) =
      .error (.length 200 TEXT_BUFFER_SIZE) ∧
    (100 : Nat) ≤ TEXT_BUFFER_SIZE :=
  ⟨(C6_text_length_validation (.update ⟨60, 1, .text 200⟩)).1 60 1 200 rfl
      (by decide),
    (C6_text_length_validation (.update ⟨60, 1, .text 100⟩)).2.2.2.2.2 60 1 100
      (by decide)⟩

/-! ## Helper lemmas: the write-path selection always yields a valid index -/

theorem next_available_message_getElem {now : Nat} {metas : List MessageMeta}
    {j : Nat} {mj : MessageMeta}
    (h : next_available_message now metas = some (j, mj)) :
    metas[j]? = some mj := by
  cases hfi : findIdxFirst (fun m => ! m.is_active now) metas with
  | some q =>
      simp only [next_available_message, hfi] at h
      obtain rfl : q = (j, mj) := by injection h
      exact (findIdxFirst_spec hfi).1
  | none =>
      simp only [next_available_message, hfi] at h
      exact (minByKeyIdx_spec h).1

theorem next_available_message_isSome (now : Nat) {metas : List MessageMeta}
    (hne : metas ≠ []) :
    ∃ j mj, next_available_message now metas = some (j, mj) := by
  cases hfi : findIdxFirst (fun m => ! m.is_active now) metas with
  | some q =>
      exact ⟨q.1, q.2, by simp only [next_available_message, hfi]⟩
  | none =>
      cases hmin : minByKeyIdx (fun m => m.updated_at) metas with
      | none => exact absurd (minByKeyIdx_eq_none.mp hmin) hne
      | some q =>
          exact ⟨q.1, q.2, by simp only [next_available_message, hfi, hmin]⟩

/-! ## Claim C9 -/

/-- **C9.** Implicit text-slot invariant and failure behaviour of the
`Text` branch of `Socket::handle_update`: starting from any cache whose
text slots all hold valid UTF-8 of length at most `TEXT_BUFFER_SIZE`, and
an update whose text length has passed validation
(`text_len ≤ TEXT_BUFFER_SIZE`), the branch selects a slot, and afterwards
every slot again satisfies the invariant; if the payload read fails or the
received bytes are not valid UTF-8, the function returns an error with the
selected slot's string cleared to empty — but with its metadata already set
to `updated_at = now`, `lifetime = update.lifetime_sec`, so for any
positive lifetime the slot is active at `now` while holding the empty
string; on success the slot holds exactly the received valid-UTF-8 bytes
with the same fresh metadata. -/
theorem C9_text_slot_invariant (now : Nat) (upd : Update) (text_len : Nat)
    (payload : Option (List Nat)) (slots : List TextSlot)
    (_hkind : upd.kind = .text text_len)
    (hlen : text_len ≤ TEXT_BUFFER_SIZE)
    (hpl : ∀ p, payload = some p → p.length = text_len)
    (hwf : ∀ s ∈ slots, s.WF)
    (hne : slots ≠ []) :
    ∃ res slots' j mj,
      Socket.handle_update_text now upd payload slots = some (res, slots') ∧
      next_available_message now (slots.map (·.meta)) = some (j, mj) ∧
      slots'.length = slots.length ∧
      (∀ s ∈ slots', s.WF) ∧
      (∀ e, res = .error e →
        slots'[j]? = some ⟨[], ⟨upd.lifetime_sec, now⟩⟩ ∧
          (0 < upd.lifetime_sec →
            (⟨upd.lifetime_sec, now⟩ : MessageMeta).is_active now = true)) ∧
      (res = .ok () → ∃ p, payload = some p ∧ utf8Valid p = true ∧
        slots'[j]? = some ⟨p, ⟨upd.lifetime_sec, now⟩⟩) := by
  have hmapne : slots.map (·.meta) ≠ [] := by
    intro hcontra
    exact hne (List.map_eq_nil_iff.mp hcontra)
  obtain ⟨j, mj, hnam⟩ := next_available_message_isSome now hmapne
  have hjlt : j < slots.length := by
    have hget := next_available_message_getElem hnam
    have : j < (slots.map (·.meta)).length := by
      by_contra hge
      rw [List.getElem?_eq_none (by omega)] at hget
      exact Option.noConfusion hget
    simpa using this
  have hactive : 0 < upd.lifetime_sec →
      (⟨upd.lifetime_sec, now⟩ : MessageMeta).is_active now = true := by
    intro hpos
    simp only [MessageMeta.is_active, decide_eq_true_eq]
    omega
  have hwfset : ∀ (x : TextSlot), x.WF → ∀ s ∈ slots.set j x, s.WF := by
    intro x hx s hs
    rcases List.mem_or_eq_of_mem_set hs with hs' | rfl
    · exact hwf s hs'
    · exact hx
  have hwfempty : TextSlot.WF ⟨[], ⟨upd.lifetime_sec, now⟩⟩ := by
    constructor
    · rfl
    · simp [TEXT_BUFFER_SIZE, TEXT_LENGTH, TEXT_LINES, TEXT_COLUMNS]
  cases payload with
  | none =>
      refine ⟨.error .socket, slots.set j ⟨[], ⟨upd.lifetime_sec, now⟩⟩, j, mj,
        by simp only [Socket.handle_update_text, hnam], hnam,
        List.length_set slots j _, hwfset _ hwfempty, ?_, ?_⟩
      · intro e he
        exact ⟨List.getElem?_set_self hjlt, hactive⟩
      · intro hok
        exact Except.noConfusion hok
  | some p =>
      by_cases hv : utf8Valid p
      · refine ⟨.ok (), slots.set j ⟨p, ⟨upd.lifetime_sec, now⟩⟩, j, mj,
          by simp only [Socket.handle_update_text, hnam]; rw [if_pos hv], hnam,
          List.length_set slots j _, ?_, ?_, ?_⟩
        · refine hwfset _ ⟨hv, ?_⟩
          rw [hpl p rfl]
          exact hlen
        · intro e he
          exact Except.noConfusion he
        · intro _
          exact ⟨p, rfl, hv, List.getElem?_set_self hjlt⟩
      · refine ⟨.error .serverMessageEncoding,
          slots.set j ⟨[], ⟨upd.lifetime_sec, now⟩⟩, j, mj,
          by simp only [Socket.handle_update_text, hnam]; rw [if_neg hv], hnam,
          List.length_set slots j _, hwfset _ hwfempty, ?_, ?_⟩
        · intro e he
          exact ⟨List.getElem?_set_self hjlt, hactive⟩
        · intro hok
          exact Except.noConfusion hok

/-- Witness for C9: a failed payload read at `now = 50` with a 60-second
lifetime leaves the selected slot active with an empty string. -/
theorem C9_text_slot_invariant_witness :
    ∃ (res : Except FetchError Unit) (slots' : List TextSlot) (j : Nat)
      (mj : MessageMeta),
      Socket.handle_update_text 50 ⟨60, 3, .text 2⟩ none
          [⟨[65], ⟨100, 1⟩⟩, ⟨[], ⟨0, 0⟩⟩] = some (res, slots') ∧
      next_available_message 50
          (([⟨[65], ⟨100, 1⟩⟩, ⟨[], ⟨0, 0⟩⟩] : List TextSlot).map (·.meta)) =
        some (j, mj) ∧
      slots'.length = ([⟨[65], ⟨100, 1⟩⟩, ⟨[], ⟨0, 0⟩⟩] : List TextSlot).length ∧
      (∀ s ∈ slots', s.WF) ∧
      (∀ e, res = .error e →
        slots'[j]? = some ⟨[], ⟨60, 50⟩⟩ ∧
          (0 < (60 : Nat) →
            (⟨60, 50⟩ : MessageMeta).is_active 50 = true)) ∧
      (res = .ok () → ∃ p, (none : Option (List Nat)) = some p ∧
        utf8Valid p = true ∧ slots'[j]? = some ⟨p, ⟨60, 50⟩⟩) :=
  C9_text_slot_invariant 50 ⟨60, 3, .text 2⟩ 2 none
    [⟨[65], ⟨100, 1⟩⟩, ⟨[], ⟨0, 0⟩⟩]
    (by decide) (by decide) (fun p hp => Option.noConfusion hp)
    (by decide) (by decide)

/-! ## Helper lemmas: the backend repository query -/

theorem get_message_of_nodup {msgs : List ServerMessage} {m : ServerMessage}
    (hnodup : (msgs.map (·.id)).Nodup) (hm : m ∈ msgs) :
    get_message msgs m.id = some m := by
  induction msgs with
  | nil => simp at hm
  | cons a as ih =>
      rw [List.map_cons, List.nodup_cons] at hnodup
      obtain ⟨hanotin, hasnodup⟩ := hnodup
      rcases List.mem_cons.mp hm with rfl | hm'
      · simp only [get_message]
        exact List.find?_cons_of_pos _ (by simp)
      · have hne : (a.id == m.id) = false := by
          simp only [beq_eq_false_iff_ne, ne_eq]
          intro heq
          exact hanotin (heq ▸ List.mem_map_of_mem (·.id) hm')
        simp only [get_message]
        rw [List.find?_cons_of_neg _ (by simp [hne])]
        simpa only [get_message] using ih hasnodup hm'

theorem get_next_message_spec {msgs : List ServerMessage} {rid : Nat}
    {after : Option Nat} {m : ServerMessage}
    (h : get_next_message msgs rid after = some m) :
    m ∈ msgs ∧ m.receiver_id = rid ∧
      afterTimeLt ((after.bind fun id => get_message msgs id).map
        (·.created_at)) m.created_at = true ∧
      ∀ x ∈ msgs, x.receiver_id = rid →
        afterTimeLt ((after.bind fun id => get_message msgs id).map
          (·.created_at)) x.created_at = true →
        m.created_at ≤ x.created_at := by
  simp only [get_next_message] at h
  obtain ⟨hmem, hmin⟩ := minByKey_spec h
  rw [List.mem_filter] at hmem
  obtain ⟨hmsgs, hcond⟩ := hmem
  simp only [Bool.and_eq_true, beq_iff_eq] at hcond
  refine ⟨hmsgs, hcond.1, hcond.2, ?_⟩
  intro x hx hxr hxa
  refine hmin x (List.mem_filter.mpr ⟨hx, ?_⟩)
  rw [Bool.and_eq_true, beq_iff_eq]
  exact ⟨hxr, hxa⟩

theorem get_next_message_gt {msgs : List ServerMessage} {rid cid : Nat}
    {c m : ServerMessage}
    (hc : get_message msgs cid = some c)
    (h : get_next_message msgs rid (some cid) = some m) :
    c.created_at < m.created_at := by
  have h2 := (get_next_message_spec h).2.2.1
  rw [show ((some cid).bind fun id => get_message msgs id) = some c from hc] at h2
  exact of_decide_eq_true h2

/-! ## Claim C10 -/

/-- **C10.** Backend cursor edge cases of `get_next_message`:
(a) a cursor id that matches no stored message behaves exactly as if no
cursor were given (the lookup yields no `after` time, and `Some(t) > None`
holds for every `t`), causing redelivery from the earliest message;
(b) because the `created_at` comparison is strict, once the cursor points
at a stored message `c`, a message `b` addressed to the same receiver with
`b.created_at = c.created_at` is never returned by that poll nor by any
later poll in the chain that always passes the previously returned
message's id (ids assumed unique, as the repository assigns them from an
insertion counter). -/
theorem C10_cursor_edge_cases (msgs : List ServerMessage) (rid : Nat) :
    (∀ cid, (∀ m ∈ msgs, m.id ≠ cid) →
      get_next_message msgs rid (some cid) = get_next_message msgs rid none) ∧
    (∀ c b, (msgs.map (·.id)).Nodup → c ∈ msgs → b ∈ msgs →
      b.created_at = c.created_at →
      ∀ n, pollChain msgs rid (some c.id) n ≠ some b) := by
  constructor
  · intro cid hno
    have hgm : get_message msgs cid = none := by
      simp only [get_message]
      rw [List.find?_eq_none]
      intro m hm
      simp only [beq_iff_eq]
      exact hno m hm
    have hsame : ((some cid).bind fun id => get_message msgs id) =
        ((none : Option Nat).bind fun id => get_message msgs id) := hgm
    simp only [get_next_message]
    rw [hsame]
  · intro c b hnodup hc hb heq
    have hcget : get_message msgs c.id = some c := get_message_of_nodup hnodup hc
    have hinv : ∀ n m, pollChain msgs rid (some c.id) n = some m →
        c.created_at < m.created_at ∧ m ∈ msgs := by
      intro n
      induction n with
      | zero =>
          intro m h
          simp only [pollChain] at h
          exact ⟨get_next_message_gt hcget h, (get_next_message_spec h).1⟩
      | succ n ihn =>
          intro m h
          simp only [pollChain] at h
          cases hprev : pollChain msgs rid (some c.id) n with
          | none => rw [hprev] at h; exact Option.noConfusion h
          | some m' =>
              rw [hprev] at h
              obtain ⟨hcm', hm'mem⟩ := ihn m' hprev
              have hm'get : get_message msgs m'.id = some m' :=
                get_message_of_nodup hnodup hm'mem
              have := get_next_message_gt hm'get h
              exact ⟨by omega, (get_next_message_spec h).1⟩
    intro n hbad
    have := (hinv n b hbad).1
    omega

/-- Witness for C10: with messages ids `0` and `1` for device `7`, polling
with unknown cursor id `99` equals polling with no cursor, and a second
message sharing the cursor's `created_at` is not returned. -/
theorem C10_cursor_edge_cases_witness :
    get_next_message [⟨0, 7, 60, 100, .text [72]⟩, ⟨1, 7, 60, 100, .text [73]⟩]
        7 (some 99) =
      get_next_message [⟨0, 7, 60, 100, .text [72]⟩, ⟨1, 7, 60, 100, .text [73]⟩]
        7 none ∧
    pollChain [⟨0, 7, 60, 100, .text [72]⟩, ⟨1, 7, 60, 100, .text [73]⟩]
        7 (some 0) 0 ≠ some ⟨1, 7, 60, 100, .text [73]⟩ :=
  ⟨(C10_cursor_edge_cases
        [⟨0, 7, 60, 100, .text [72]⟩, ⟨1, 7, 60, 100, .text [73]⟩] 7).1 99
      (by decide),
    (C10_cursor_edge_cases
        [⟨0, 7, 60, 100, .text [72]⟩, ⟨1, 7, 60, 100, .text [73]⟩] 7).2
      ⟨0, 7, 60, 100, .text [72]⟩ ⟨1, 7, 60, 100, .text [73]⟩
      (by decide) (by decide) (by decide) (by decide) 0⟩

/-! ## Claim C8 -/

/-- **C8 (code evaluation at the failing input).**  The session loop of
`src/server/src/handlers/device.rs` evaluated on a repository holding one
pending text message for device `7`:

* after the `CheckUpdate` command it sends only the encoded `Update` result
  and then waits for the next client command — the trace contains **no**
  payload bytes, contradicting the claim that the raw content bytes are
  streamed immediately with no further handshake (the device-side client
  `Socket::handle_update` reads the payload immediately, one command per
  poll, and the current `common::protocols::pico::ClientCommand` has no
  `CheckUpdate`/`RequestUpdate(id)` variants at all);
* the payload is streamed only after an explicit second
  `RequestUpdate(id)` command;
* after a `NoUpdate` result the connection is closed, and a malformed
  command aborts only the connection — those two conjuncts of the claim do
  hold. -/
theorem C8_handler_trace :
    handle_client [⟨0, 7, 60, 100, .text [72, 105]⟩]
        [some (.checkUpdate 7 none)] =
      [.sentResult (.update ⟨60, 0, .text 2⟩)] ∧
    (∀ bytes, .sentPayload bytes ∉
      handle_client [⟨0, 7, 60, 100, .text [72, 105]⟩]
        [some (.checkUpdate 7 none)]) ∧
    handle_client [⟨0, 7, 60, 100, .text [72, 105]⟩]
        [some (.checkUpdate 7 none), some (.requestUpdate 0)] =
      [.sentResult (.update ⟨60, 0, .text 2⟩), .sentPayload [72, 105]] ∧
    handle_client [⟨0, 7, 60, 100, .text [72, 105]⟩]
        [some (.checkUpdate 9 none)] =
      [.sentResult .noUpdate, .closedConnection] ∧
    handle_client [⟨0, 7, 60, 100, .text [72, 105]⟩] [none] =
      [.closedConnection] := by
  refine ⟨by decide, ?_, by decide, by decide, by decide⟩
  intro bytes hmem
  have heval : handle_client [⟨0, 7, 60, 100, .text [72, 105]⟩]
      [some (.checkUpdate 7 none)] =
        [.sentResult (.update ⟨60, 0, .text 2⟩)] := by decide
  rw [heval] at hmem
  rcases List.mem_singleton.mp hmem with h
  exact ServerEvent.noConfusion h

end RpiMessages
